import Mathlib

/-!
# r2dec-js mid-end: shallow embedding and verification

This file embeds, in Lean 4, the parts of the r2dec decompiler mid-end that the
specification's claims are about, and proves (or refutes) those claims.

Embedded components, translated from the JavaScript sources:

* the expression simplifier (`simplify` module found in `src/core2/analysis/ssa.js`,
  third document): the rewrite rules `_correct_arith`, `_correct_sign`,
  `_correct_ref`, `_correct_bitwise`, `_equality`, `_negate`, `_converged_cond`,
  `_constant_folding`, `_ctx_fold_assoc`, `_ctx_fold_arith`, `_cond_folding`,
  their arity-based dispatch, and the bottom-up reduction loop
  `_reduce_expr_rec` / `_reduce_expr` (modelled with explicit fuel, since the
  JavaScript loop's termination is exactly what is under study; the fuelled
  function computes the very same iteration);
* the SSA context operations `add_def` / `add_use`
  (`src/js/libcore2/analysis/ssa.js`);
* phi insertion (`insert_phi_exprs`) and the phi relaxation passes
  `simplify_single_phi`, `simplify_self_ref_phi`, `propagate_chained_phi`
  (`src/js/libcore2/analysis/ssa.js`);
* the pruner driver and its `_select_dead_results` selector
  (`src/unnamed/part_000`);
* `SSA.prototype.transform_out` (`src/js/libcore2/analysis/ssa.js`).

Modelled from the spec (the corresponding sources are not part of the given
source tree, only their callers are):

* the `Long` 64-bit integer library (`js/libcore2/libs/long`), used by the
  constant-folding rules, is modelled as exact integer arithmetic, following
  the spec's description of constant folding as exact ("performed only when
  sign-safe", "constant folding of integer constants");
* the expression class hierarchy (`js/libcore2/analysis/ir/expressions`):
  expressions are modelled as a tagged tree per spec section 3; `equals` is
  structural equality, `clone` is the identity on the structural content
  (the ssa-field preservation lists of the source are irrelevant here because
  the structural model carries no cross links);
* the dominator tree / dominance frontier (`js/libcore2/analysis/graph`) is
  taken as an abstract function parameter, as the claims do not depend on how
  the frontier is computed.
-/

/-! ## Expression model (spec section 3, data model of the simplifier)

Binary operators.  The source dispatches rewrite rules by arity family
(`UExpr` / `BExpr` / `TExpr`), so all binary operators share one constructor;
`asg` stands for `Assign`, which the source treats as a binary expression with
no applicable rewrite rule. -/

inductive BinOp
| add | sub | mul | div | mod
| and | or | xor | shl | shr
| boolAnd | boolOr
| eq | ne | lt | le | gt | ge
| asg
deriving DecidableEq

/-- Expression tree.  `val` carries the integer value and the bit-width
(`size`); `reg` and `var` carry a name and a size; `deref` carries the address
expression and an access size.  Unary `neg`/`not`/`boolNot` and the `addrOf` /
`deref` pair form the `UExpr` family, `bin` the `BExpr` family, `tcond` the
`TExpr` family. -/
inductive Expr
| val : Int → Nat → Expr
| reg : String → Nat → Expr
| var : String → Nat → Expr
| deref : Expr → Nat → Expr
| addrOf : Expr → Expr
| neg : Expr → Expr
| not : Expr → Expr
| boolNot : Expr → Expr
| bin : BinOp → Expr → Expr → Expr
| tcond : Expr → Expr → Expr → Expr
deriving DecidableEq

/-- Bit width of an expression: leaves carry it, compound expressions take the
width of their (first) operand.  Modelled from the spec: "Every expression has
... a bit-width (size)". -/
def Expr.size : Expr → Nat
| .val _ sz => sz
| .reg _ sz => sz
| .var _ sz => sz
| .deref _ sz => sz
| .addrOf a => a.size
| .neg a => a.size
| .not a => a.size
| .boolNot a => a.size
| .bin _ a _ => a.size
| .tcond _ t _ => t.size

/-- Modelled from the spec: `clone(e, preserve_fields)` deep-copies an
expression; in this structural model a copy is the value itself (there are no
cross links to reset, so the `wssa` preservation list of the source changes
nothing). -/
def clone (e : Expr) : Expr := e

/-! ## Relation ranks (`__rel_names`, `__rel_exprs` of the source) -/

/-- Rank of a relation operator inside the `__rel_names` table:
`EQ=1, LT=2, LE=3, GT=4, GE=5, NE=6`, `-1` when the operator is not a
comparison (the source computes this with `indexOf` on constructor names). -/
def __rel_rank_op : BinOp → Int
| .eq => 1
| .lt => 2
| .le => 3
| .gt => 4
| .ge => 5
| .ne => 6
| _ => -1

/-- `__get_rel_rank`: ranking value of a relation expression instance, `-1` for
anything that is not a comparison. -/
def __get_rel_rank : Expr → Int
| .bin op _ _ => __rel_rank_op op
| _ => -1

/-- `__is_compare_expr` -/
def __is_compare_expr (e : Expr) : Bool := __get_rel_rank e ≠ -1

/-- `__get_neg_rank`: rank negation, `rank ^ (__rel_exprs.length - 1)`,
i.e. xor with `0b111`. -/
def __get_neg_rank (rank : Nat) : Nat := rank ^^^ 7

/-- The `__rel_exprs` table: builds the relation of a given rank over two
operands; rank 0 gives `Val(0, 1)` (false), rank 7 gives `Val(1, 1)` (true). -/
def __get_rel_expr (rank : Nat) (x y : Expr) : Expr :=
  match rank with
  | 0 => .val 0 1
  | 1 => .bin .eq x y
  | 2 => .bin .lt x y
  | 3 => .bin .le x y
  | 4 => .bin .gt x y
  | 5 => .bin .ge x y
  | 6 => .bin .ne x y
  | _ => .val 1 1

/-! ## Rewrite rules (each returns a replacement or `none` for "did not fire") -/

/-- `x + 0`, `0 + x`: is `expr` structurally equal to `Val(0, expr.size)`. -/
def __is_additive_id (expr : Expr) : Bool := decide (expr = Expr.val 0 expr.size)

/-- `x * 1`, `1 * x`: is `expr` structurally equal to `Val(1, expr.size)`. -/
def __is_multiplicative_id (expr : Expr) : Bool := decide (expr = Expr.val 1 expr.size)

/-- `_correct_arith`: arithmetic identities `x+0`, `0+x`, `x-0`, `x*1`, `1*x`,
`x/1`. -/
def _correct_arith (bexpr : Expr) : Option Expr :=
  match bexpr with
  | .bin .add lhand rhand =>
      if __is_additive_id rhand then some (clone lhand)
      else if __is_additive_id lhand then some (clone rhand)
      else none
  | .bin .sub lhand rhand =>
      if __is_additive_id rhand then some (clone lhand) else none
  | .bin .mul lhand rhand =>
      if __is_multiplicative_id rhand then some (clone lhand)
      else if __is_multiplicative_id lhand then some (clone rhand)
      else none
  | .bin .div lhand rhand =>
      if __is_multiplicative_id rhand then some (clone lhand) else none
  | _ => none

/-- `_correct_sign`: `x + (-c)` into `x - c` and `x - (-c)` into `x + c` for a
negative constant `c` (the source negates the constant in place and clones). -/
def _correct_sign (bexpr : Expr) : Option Expr :=
  match bexpr with
  | .bin .add lhand (.val v sz) =>
      if v < 0 then some (.bin .sub (clone lhand) (.val (-v) sz)) else none
  | .bin .sub lhand (.val v sz) =>
      if v < 0 then some (.bin .add (clone lhand) (.val (-v) sz)) else none
  | _ => none

/-- `_correct_ref`: `&(*x)` into `x` and `*(&x)` into `x`. -/
def _correct_ref (uexpr : Expr) : Option Expr :=
  match uexpr with
  | .addrOf (.deref x _) => some (clone x)
  | .deref (.addrOf x) _ => some (clone x)
  | _ => none

/-- `_negate`: boolean negation rules, only fires on a `BoolNot` node.
deMorgan for `&&` and `||`, `!(x + y)` into `x == -y`, `!(x - y)` into
`x == y`, `!!x` into `x`, `!constant` into `1`/`0` of width 1. -/
def _negate (uexpr : Expr) : Option Expr :=
  match uexpr with
  | .boolNot op =>
    match op with
    | .bin .boolAnd a b =>
        some (.bin .boolOr (.boolNot (clone a)) (.boolNot (clone b)))
    | .bin .boolOr a b =>
        some (.bin .boolAnd (.boolNot (clone a)) (.boolNot (clone b)))
    | .bin .add a b => some (.bin .eq (clone a) (.neg (clone b)))
    | .bin .sub a b => some (.bin .eq (clone a) (clone b))
    | .bin _ _ _ => none
    | .boolNot inner_op => some (clone inner_op)
    | .neg _ => none
    | .not _ => none
    | .val v _ => some (if v = 0 then .val 1 1 else .val 0 1)
    | _ => none
  | _ => none

/-- `_correct_bitwise`: bitwise identities.  The all-ones mask and the zero are
built at the width of the left operand, exactly as the source does. -/
def _correct_bitwise (bexpr : Expr) : Option Expr :=
  match bexpr with
  | .bin op lhand rhand =>
    match op with
    | .xor =>
        if lhand = Expr.val 0 lhand.size then some (clone rhand)
        else if rhand = Expr.val 0 lhand.size then some (clone lhand)
        else if rhand = lhand then some (Expr.val 0 lhand.size)
        else if rhand = Expr.val (2 ^ lhand.size - 1) lhand.size then
          some (.not (clone lhand))
        else none
    | .or =>
        if lhand = Expr.val 0 lhand.size then some (clone rhand)
        else if rhand = Expr.val 0 lhand.size then some (clone lhand)
        else if rhand = lhand then some (clone lhand)
        else if rhand = Expr.val (2 ^ lhand.size - 1) lhand.size then
          some (Expr.val (2 ^ lhand.size - 1) lhand.size)
        else none
    | .and =>
        if lhand = Expr.val 0 lhand.size then some (Expr.val 0 lhand.size)
        else if rhand = Expr.val 0 lhand.size then some (Expr.val 0 lhand.size)
        else if rhand = lhand then some (clone rhand)
        else if rhand = Expr.val (2 ^ lhand.size - 1) lhand.size then
          some (clone lhand)
        else none
    | .shr =>
        if lhand = Expr.val 0 lhand.size then some (Expr.val 0 lhand.size)
        else if rhand = Expr.val 0 lhand.size then some (clone lhand)
        else none
    | .shl =>
        if lhand = Expr.val 0 lhand.size then some (Expr.val 0 lhand.size)
        else if rhand = Expr.val 0 lhand.size then some (clone lhand)
        else
          match lhand, rhand with
          | .bin .shr inner_lhand inner_rhand, .val cv cs =>
              if inner_rhand = Expr.val cv cs then
                some (.bin .and (clone inner_lhand)
                       (.val (Int.lnot (2 ^ cv.toNat - 1)) cs))
              else none
          | _, _ => none
    | _ => none
  | _ => none

/-- `_equality`: comparison rewrites.  `(x + c1) cmp c2` into
`x cmp (c2 - c1)`, `(x - c1) cmp c2` into `x cmp (c2 + c1)`,
`(x - y) cmp 0` into `x cmp y`, `(x + y) cmp 0` into `x cmp (-y)`,
comparison of two known values folds for `EQ` and (only when equal) `NE`.
The source's single zero-test is reached only when the constant/constant
branch did not return (the left operator is neither `Add` nor `Sub`, in which
case the zero-test leads to `null` anyway), so it is written here on the
fall-through arm; `are_equal` is the structural `equals` of the two
constants, which compares value and size. -/
def _equality (bexpr : Expr) : Option Expr :=
  match bexpr with
  | .bin cmp l r =>
    if __rel_rank_op cmp ≠ -1 then
      match l, r with
      | .bin lop x y, _ =>
        match y, r with
        | .val c1 cs1, .val c2 cs2 =>
          if lop = .add then
            some (.bin cmp (clone x) (.bin .sub (.val c2 cs2) (.val c1 cs1)))
          else if lop = .sub then
            some (.bin cmp (clone x) (.bin .add (.val c2 cs2) (.val c1 cs1)))
          else none
        | _, _ =>
          if r = Expr.val 0 r.size then
            if lop = .sub then some (.bin cmp (clone x) (clone y))
            else if lop = .add then some (.bin cmp (clone x) (.neg (clone y)))
            else none
          else none
      | .val v1 s1, .val v2 s2 =>
        if (Expr.val v1 s1 : Expr) = Expr.val v2 s2 then
          if cmp = .eq then some (.val 1 1)
          else if cmp = .ne then some (.val 0 1)
          else none
        else
          if cmp = .eq then some (.val 0 1)
          else none
      | _, _ => none
    else none
  | _ => none

/-- `_converged_cond`: the converged relational algebra.  For structurally
identical operand pairs, `!` maps rank to `rank ^ 0b111`, `||` to the
bitwise-or of ranks, `&&` to the bitwise-and, `==` to the complement of the
xor. -/
def _converged_cond (expr : Expr) : Option Expr :=
  match expr with
  | .boolNot op =>
    match op with
    | .bin cop x0 y0 =>
        if __rel_rank_op cop ≠ -1 then
          some (__get_rel_expr ((__rel_rank_op cop).toNat ^^^ 7)
                  (clone x0) (clone y0))
        else none
    | _ => none
  | .bin .boolOr (.bin lop x0 y0) (.bin rop x1 y1) =>
      if __rel_rank_op lop ≠ -1 ∧ __rel_rank_op rop ≠ -1 then
        if x0 = x1 ∧ y0 = y1 then
          some (__get_rel_expr
                  ((__rel_rank_op lop).toNat ||| (__rel_rank_op rop).toNat)
                  (clone x0) (clone y0))
        else none
      else none
  | .bin .boolAnd (.bin lop x0 y0) (.bin rop x1 y1) =>
      if __rel_rank_op lop ≠ -1 ∧ __rel_rank_op rop ≠ -1 then
        if x0 = x1 ∧ y0 = y1 then
          some (__get_rel_expr
                  ((__rel_rank_op lop).toNat &&& (__rel_rank_op rop).toNat)
                  (clone x0) (clone y0))
        else none
      else none
  | .bin .eq (.bin lop x0 y0) (.bin rop x1 y1) =>
      if __rel_rank_op lop ≠ -1 ∧ __rel_rank_op rop ≠ -1 then
        if x0 = x1 ∧ y0 = y1 then
          some (__get_rel_expr
                  (__get_neg_rank
                    ((__rel_rank_op lop).toNat ^^^ (__rel_rank_op rop).toNat))
                  (clone x0) (clone y0))
        else none
      else none
  | _ => none

/-- The `operations` table of `_constant_folding`.  Modelled from the spec:
`Long` 64-bit arithmetic is modelled as exact integer arithmetic (division and
remainder truncate toward zero as in the `Long` library; shifts are
multiplication and truncated division by a power of two). -/
def operations : BinOp → Option (Int → Int → Int)
| .add => some (fun a b => a + b)
| .sub => some (fun a b => a - b)
| .mul => some (fun a b => a * b)
| .div => some (fun a b => Int.tdiv a b)
| .mod => some (fun a b => Int.tmod a b)
| .and => some (fun a b => Int.land a b)
| .or  => some (fun a b => Int.lor a b)
| .xor => some (fun a b => Int.xor a b)
| .shl => some (fun a b => a * 2 ^ b.toNat)
| .shr => some (fun a b => Int.tdiv a (2 ^ b.toNat))
| _ => none

/-- The mask of `_has_msb_set`, the JavaScript expression
`1 << (val.size - 1)`: the shift is a 32-bit operation — the count is taken
mod 32 and the result is a signed 32-bit integer — and `val.value.and(msb)`
coerces it to `Long` with sign extension, so for sizes 32 and 64 the mask
covers bits 31..63 rather than the single top bit. -/
def _msb_mask (sz : Nat) : Int :=
  if (((sz : Int) - 1) % 32).toNat = 31 then -(2 ^ 31)
  else 2 ^ (((sz : Int) - 1) % 32).toNat

/-- `_has_msb_set`: whether the value masked with `1 << (val.size - 1)`
(as computed by JavaScript, see `_msb_mask`) is nonzero. -/
def _has_msb_set (v : Int) (sz : Nat) : Bool :=
  decide (Int.land v (_msb_mask sz) ≠ 0)

/-- `_sign_safe`: an operation is sign-safe when it is sign-insensitive (every
operation except `Shr`) or the left value cannot be considered negative. -/
def _sign_safe (opname : BinOp) (v : Int) (sz : Nat) : Bool :=
  decide (opname ≠ BinOp.shr) || ! _has_msb_set v sz

/-- `_constant_folding`: folds a binary operation over two constants into one
constant of the left operand's width, when sign-safe. -/
def _constant_folding (bexpr : Expr) : Option Expr :=
  match bexpr with
  | .bin opname (.val va sa) (.val vb sb) =>
    match operations opname with
    | some op => if _sign_safe opname va sa then some (.val (op va vb) sa) else none
    | none => none
  | _ => none

/-- The associative operations list of `_ctx_fold_assoc`. -/
def assoc_ops : List BinOp := [.add, .mul, .and, .or, .xor]

/-- `_ctx_fold_assoc`: `((x op c1) op c0)` into `(x op (c1 op c0))` for an
associative `op` and constants `c0`, `c1`. -/
def _ctx_fold_assoc (bexpr : Expr) : Option Expr :=
  match bexpr with
  | .bin oop (.bin iop ilhand (.val iv isz)) (.val ov osz) =>
      if oop ∈ assoc_ops ∧ iop ∈ assoc_ops ∧ oop = iop then
        some (.bin iop (clone ilhand) (.bin iop (.val iv isz) (.val ov osz)))
      else none
  | _ => none

/-- The arithmetic operations list of `_ctx_fold_arith`. -/
def arith_ops : List BinOp := [.add, .sub]

/-- `_ctx_fold_arith`: `((x op1 c1) op0 c0)` into `(x op1 (c1 op c0))` where
`op` is `Add` when the two operators agree and `Sub` otherwise. -/
def _ctx_fold_arith (bexpr : Expr) : Option Expr :=
  match bexpr with
  | .bin oop (.bin iop ilhand (.val iv isz)) (.val ov osz) =>
      if oop ∈ arith_ops ∧ iop ∈ arith_ops then
        let op : BinOp := if oop = iop then .add else .sub
        some (.bin iop (clone ilhand) (.bin op (.val iv isz) (.val ov osz)))
      else none
  | _ => none

/-- `_cond_folding`: `TCond(const, t, f)` collapses to `t` or `f`. -/
def _cond_folding (texpr : Expr) : Option Expr :=
  match texpr with
  | .tcond (.val cv _) tx fx => some (if cv = 0 then clone fx else clone tx)
  | _ => none

/-! ## Rule dispatch and the reduction loop -/

/-- Rules that apply to unary expressions. -/
def _uexpr_rules : List (Expr → Option Expr) :=
  [_correct_ref, _negate, _converged_cond]

/-- Rules that apply to binary expressions, in the source's order. -/
def _bexpr_rules : List (Expr → Option Expr) :=
  [_correct_arith, _correct_sign, _correct_bitwise, _equality,
   _converged_cond, _constant_folding, _ctx_fold_assoc, _ctx_fold_arith]

/-- Rules that apply to ternary expressions. -/
def _texpr_rules : List (Expr → Option Expr) := [_cond_folding]

/-- `_select_rules_set`: pick the rule set by arity family. -/
def _select_rules_set (expr : Expr) : List (Expr → Option Expr) :=
  match expr with
  | .deref .. => _uexpr_rules
  | .addrOf .. => _uexpr_rules
  | .neg .. => _uexpr_rules
  | .not .. => _uexpr_rules
  | .boolNot .. => _uexpr_rules
  | .bin .. => _bexpr_rules
  | .tcond .. => _texpr_rules
  | _ => []

/-- `_reduce_expr_once`: try the rules of the node's family in order, return
the first replacement. -/
def _reduce_expr_once (expr : Expr) : Option Expr :=
  (_select_rules_set expr).findSome? (fun rule => rule expr)

/-- Apply a function to every direct operand (the recursion pattern of
`_reduce_expr_rec`, which first reduces all operands). -/
def mapOperands (f : Expr → Expr) (e : Expr) : Expr :=
  match e with
  | .deref a sz => .deref (f a) sz
  | .addrOf a => .addrOf (f a)
  | .neg a => .neg (f a)
  | .not a => .not (f a)
  | .boolNot a => .boolNot (f a)
  | .bin op a b => .bin op (f a) (f b)
  | .tcond c t u => .tcond (f c) (f t) (f u)
  | other => other

/-- `_reduce_expr` / `_reduce_expr_rec`: bottom-up (post-order) reduction to a
fixpoint, with explicit fuel.  One fuel step normalizes the operands (the
source's inner `while (expr.operands.some(_reduce_expr_rec))` loop), applies
the first firing rule at the root, and re-enters the loop on the replacement;
for any fuel past stabilization this computes the source loop's final
expression. -/
def reduce_expr (fuel : Nat) (expr : Expr) : Expr :=
  match fuel with
  | 0 => expr
  | fuel' + 1 =>
    let e := mapOperands (fun x => reduce_expr fuel' x) expr
    match _reduce_expr_once e with
    | some reduced => reduce_expr fuel' reduced
    | none => e

/-! ## Termination measure for the rewrite system

`W` interprets every expression as a positive integer; the interpretation is
strictly monotone in every operand position, and every rewrite rule except
`_correct_sign` strictly decreases it.  `negs` counts negative integer
constants; `_correct_sign` keeps `W` and strictly decreases `negs` (it turns
one negative constant into a positive one without changing the tree skeleton).
The pair `(W, negs)` ordered lexicographically is the well-founded measure,
packed below into the single natural number `Rmeasure`. -/

def W : Expr → Nat
| .val _ _ => 1
| .reg _ _ => 1
| .var _ _ => 1
| .deref a _ => W a + 1
| .addrOf a => W a + 1
| .neg a => W a + 1
| .not a => W a + 1
| .boolNot a => 2 * W a
| .bin _ a b => 2 * W a + W b + 1
| .tcond c t u => 2 * W c + W t + W u + 1

/-- Number of negative constant leaves in an expression. -/
def negs : Expr → Nat
| .val v _ => if v < 0 then 1 else 0
| .reg _ _ => 0
| .var _ _ => 0
| .deref a _ => negs a
| .addrOf a => negs a
| .neg a => negs a
| .not a => negs a
| .boolNot a => negs a
| .bin _ a b => negs a + negs b
| .tcond c t u => negs c + negs t + negs u

theorem W_pos (e : Expr) : 0 < W e := by
  induction e <;> simp only [W] <;> omega

theorem negs_le_W (e : Expr) : negs e ≤ W e := by
  induction e <;> simp only [negs, W] <;> (try split) <;> omega

theorem W_rel_expr_le (rank : Nat) (x y : Expr) :
    W (__get_rel_expr rank x y) ≤ 2 * W x + W y + 1 := by
  have hx := W_pos x
  have hy := W_pos y
  unfold __get_rel_expr
  split <;> simp only [W] <;> omega

theorem _correct_arith_dec {e r : Expr} (h : _correct_arith e = some r) : W r < W e := by
  unfold _correct_arith at h
  repeat' split at h
  all_goals try (exfalso; exact Option.noConfusion h)
  all_goals (injection h with h; subst h)
  all_goals simp only [clone, W]
  all_goals omega

theorem _correct_sign_eq {e r : Expr} (h : _correct_sign e = some r) :
    W r = W e ∧ negs r < negs e := by
  unfold _correct_sign at h
  repeat' split at h
  all_goals try exact Option.noConfusion h
  all_goals (injection h with h; subst h)
  all_goals refine ⟨rfl, ?_⟩
  all_goals simp only [clone, negs]
  all_goals repeat' split
  all_goals omega

theorem _correct_ref_dec {e r : Expr} (h : _correct_ref e = some r) : W r < W e := by
  unfold _correct_ref at h
  repeat' split at h
  all_goals try exact Option.noConfusion h
  all_goals (injection h with h; subst h)
  all_goals simp only [clone, W]
  all_goals omega

theorem _negate_dec {e r : Expr} (h : _negate e = some r) : W r < W e := by
  cases e <;> simp only [_negate] at h <;> try exact Option.noConfusion h
  case boolNot op =>
  cases op <;> try exact Option.noConfusion h
  case val v sz =>
    injection h with h; subst h
    split <;> simp only [W] <;> omega
  case boolNot inner =>
    have hi := W_pos inner
    injection h with h; subst h
    simp only [clone, W]; omega
  case bin bop a b =>
    have ha := W_pos a
    have hb := W_pos b
    cases bop <;> try exact Option.noConfusion h
    all_goals (injection h with h; subst h; simp only [clone, W]; omega)

theorem _correct_bitwise_dec {e r : Expr} (h : _correct_bitwise e = some r) : W r < W e := by
  cases e <;> try exact Option.noConfusion h
  case bin op lhand rhand =>
  have hl := W_pos lhand
  have hr := W_pos rhand
  simp only [_correct_bitwise] at h
  repeat' split at h
  all_goals try exact Option.noConfusion h
  all_goals (injection h with h; subst h)
  all_goals simp only [clone, W]
  all_goals omega

theorem _equality_dec {e r : Expr} (h : _equality e = some r) : W r < W e := by
  unfold _equality at h
  repeat' split at h
  all_goals try exact Option.noConfusion h
  all_goals (injection h with h; subst h)
  all_goals simp only [clone, W]
  all_goals omega

theorem _converged_cond_dec {e r : Expr} (h : _converged_cond e = some r) : W r < W e := by
  unfold _converged_cond at h
  repeat' split at h
  all_goals try exact Option.noConfusion h
  all_goals (injection h with h; subst h)
  all_goals refine lt_of_le_of_lt (W_rel_expr_le _ _ _) ?_
  all_goals simp only [clone, W]
  all_goals omega

theorem _constant_folding_dec {e r : Expr} (h : _constant_folding e = some r) : W r < W e := by
  unfold _constant_folding at h
  repeat' split at h
  all_goals try exact Option.noConfusion h
  all_goals (injection h with h; subst h)
  all_goals simp only [W]
  all_goals omega

theorem _ctx_fold_assoc_dec {e r : Expr} (h : _ctx_fold_assoc e = some r) : W r < W e := by
  unfold _ctx_fold_assoc at h
  repeat' split at h
  all_goals try exact Option.noConfusion h
  all_goals (injection h with h; subst h)
  all_goals simp only [clone, W]
  all_goals omega

theorem _ctx_fold_arith_dec {e r : Expr} (h : _ctx_fold_arith e = some r) : W r < W e := by
  unfold _ctx_fold_arith at h
  repeat' split at h
  all_goals try exact Option.noConfusion h
  all_goals (injection h with h; subst h)
  all_goals simp only [clone, W]
  all_goals omega

theorem _cond_folding_dec {e r : Expr} (h : _cond_folding e = some r) : W r < W e := by
  unfold _cond_folding at h
  repeat' split at h
  all_goals try exact Option.noConfusion h
  all_goals (injection h with h; subst h)
  all_goals simp only [clone, W]
  all_goals omega

/-! ## One firing of a rewrite rule anywhere inside an expression

`Step e r` holds when the in-place reduction loop can rewrite `e` into `r` by
one rule firing: either the first applicable rule of `e`'s own family fires at
the root (`_reduce_expr_once`), or a firing happens inside one operand (the
loop recurses into operands first). -/

inductive Step : Expr → Expr → Prop
| root {e r} : _reduce_expr_once e = some r → Step e r
| deref_op {a a' sz} : Step a a' → Step (.deref a sz) (.deref a' sz)
| addrOf_op {a a'} : Step a a' → Step (.addrOf a) (.addrOf a')
| neg_op {a a'} : Step a a' → Step (.neg a) (.neg a')
| not_op {a a'} : Step a a' → Step (.not a) (.not a')
| boolNot_op {a a'} : Step a a' → Step (.boolNot a) (.boolNot a')
| bin_left {op a a' b} : Step a a' → Step (.bin op a b) (.bin op a' b)
| bin_right {op a b b'} : Step b b' → Step (.bin op a b) (.bin op a b')
| tcond_cond {c c' t u} : Step c c' → Step (.tcond c t u) (.tcond c' t u)
| tcond_then {c t t' u} : Step t t' → Step (.tcond c t u) (.tcond c t' u)
| tcond_else {c t u u'} : Step u u' → Step (.tcond c t u) (.tcond c t u')

theorem _reduce_expr_once_dec {e r : Expr} (h : _reduce_expr_once e = some r) :
    W r < W e ∨ (W r = W e ∧ negs r < negs e) := by
  unfold _reduce_expr_once at h
  obtain ⟨rule, hmem, hrule⟩ := List.exists_of_findSome?_eq_some h
  have hset : rule = _correct_ref ∨ rule = _negate ∨ rule = _converged_cond ∨
      rule = _correct_arith ∨ rule = _correct_sign ∨ rule = _correct_bitwise ∨
      rule = _equality ∨ rule = _constant_folding ∨ rule = _ctx_fold_assoc ∨
      rule = _ctx_fold_arith ∨ rule = _cond_folding := by
    unfold _select_rules_set at hmem
    split at hmem <;>
      simp only [_uexpr_rules, _bexpr_rules, _texpr_rules, List.mem_cons,
        List.not_mem_nil, or_false] at hmem <;>
      tauto
  rcases hset with rfl | rfl | rfl | rfl | rfl | rfl | rfl | rfl | rfl | rfl | rfl
  · exact Or.inl (_correct_ref_dec hrule)
  · exact Or.inl (_negate_dec hrule)
  · exact Or.inl (_converged_cond_dec hrule)
  · exact Or.inl (_correct_arith_dec hrule)
  · exact Or.inr (_correct_sign_eq hrule)
  · exact Or.inl (_correct_bitwise_dec hrule)
  · exact Or.inl (_equality_dec hrule)
  · exact Or.inl (_constant_folding_dec hrule)
  · exact Or.inl (_ctx_fold_assoc_dec hrule)
  · exact Or.inl (_ctx_fold_arith_dec hrule)
  · exact Or.inl (_cond_folding_dec hrule)

theorem step_lex {e r : Expr} (h : Step e r) :
    W r < W e ∨ (W r = W e ∧ negs r < negs e) := by
  induction h with
  | root h0 => exact _reduce_expr_once_dec h0
  | deref_op _ ih => rcases ih with h1 | ⟨h1, h2⟩ <;> simp only [W, negs] <;> omega
  | addrOf_op _ ih => rcases ih with h1 | ⟨h1, h2⟩ <;> simp only [W, negs] <;> omega
  | neg_op _ ih => rcases ih with h1 | ⟨h1, h2⟩ <;> simp only [W, negs] <;> omega
  | not_op _ ih => rcases ih with h1 | ⟨h1, h2⟩ <;> simp only [W, negs] <;> omega
  | boolNot_op _ ih => rcases ih with h1 | ⟨h1, h2⟩ <;> simp only [W, negs] <;> omega
  | bin_left _ ih => rcases ih with h1 | ⟨h1, h2⟩ <;> simp only [W, negs] <;> omega
  | bin_right _ ih => rcases ih with h1 | ⟨h1, h2⟩ <;> simp only [W, negs] <;> omega
  | tcond_cond _ ih => rcases ih with h1 | ⟨h1, h2⟩ <;> simp only [W, negs] <;> omega
  | tcond_then _ ih => rcases ih with h1 | ⟨h1, h2⟩ <;> simp only [W, negs] <;> omega
  | tcond_else _ ih => rcases ih with h1 | ⟨h1, h2⟩ <;> simp only [W, negs] <;> omega

/-- The lexicographic pair `(W, negs)` packed into one natural number, using
`negs e ≤ W e`. -/
def Rmeasure (e : Expr) : Nat := W e * W e + negs e

theorem step_Rmeasure_dec {e r : Expr} (h : Step e r) : Rmeasure r < Rmeasure e := by
  have hlex := step_lex h
  have hnr := negs_le_W r
  have hne := negs_le_W e
  unfold Rmeasure
  rcases hlex with h3 | ⟨h3, h4⟩
  · have h8 : (W r + 1) * (W r + 1) ≤ W e * W e := Nat.mul_le_mul h3 h3
    have hexp : (W r + 1) * (W r + 1) = W r * W r + 2 * W r + 1 := by ring
    rw [hexp] at h8
    omega
  · rw [h3]
    omega

/-! ## Computing `reduce_expr` on specific shapes

The following lemmas evaluate the reduction loop symbolically.  An
"atom" is a register or variable leaf: no rewrite rule applies to it or to a
comparison/subtraction built from such leaves, which is what the algebraic
claims quantify over. -/

/-- An irreducible leaf operand: a register or a variable. -/
def isLeafAtom : Expr → Bool
| .reg _ _ => true
| .var _ _ => true
| _ => false

theorem reduce_expr_atom {x : Expr} (hx : isLeafAtom x = true) (fuel : Nat) :
    reduce_expr fuel x = x := by
  cases x <;> try simp [isLeafAtom] at hx
  all_goals cases fuel <;> rfl

theorem reduce_expr_val (v : Int) (sz : Nat) (fuel : Nat) :
    reduce_expr fuel (.val v sz) = .val v sz := by
  cases fuel <;> rfl

theorem once_cmp_atoms_none {op : BinOp} (h : __rel_rank_op op ≠ -1) {x y : Expr}
    (hx : isLeafAtom x = true) (hy : isLeafAtom y = true) :
    _reduce_expr_once (.bin op x y) = none := by
  cases op <;> try (exact absurd rfl h)
  all_goals (cases x <;> try simp [isLeafAtom] at hx)
  all_goals (cases y <;> try simp [isLeafAtom] at hy)
  all_goals rfl

theorem reduce_expr_cmp_atoms {op : BinOp} (h : __rel_rank_op op ≠ -1) {x y : Expr}
    (hx : isLeafAtom x = true) (hy : isLeafAtom y = true) (fuel : Nat) :
    reduce_expr fuel (.bin op x y) = .bin op x y := by
  cases fuel with
  | zero => rfl
  | succ f =>
    simp only [reduce_expr, mapOperands]
    rw [reduce_expr_atom hx f, reduce_expr_atom hy f, once_cmp_atoms_none h hx hy]

theorem reduce_expr_rel_expr {x y : Expr} (hx : isLeafAtom x = true)
    (hy : isLeafAtom y = true) (k fuel : Nat) :
    reduce_expr fuel (__get_rel_expr k x y) = __get_rel_expr k x y := by
  unfold __get_rel_expr
  split
  · exact reduce_expr_val 0 1 fuel
  · exact reduce_expr_cmp_atoms (by decide) hx hy fuel
  · exact reduce_expr_cmp_atoms (by decide) hx hy fuel
  · exact reduce_expr_cmp_atoms (by decide) hx hy fuel
  · exact reduce_expr_cmp_atoms (by decide) hx hy fuel
  · exact reduce_expr_cmp_atoms (by decide) hx hy fuel
  · exact reduce_expr_cmp_atoms (by decide) hx hy fuel
  · exact reduce_expr_val 1 1 fuel

theorem findSome8_fifth {α β : Type} {f1 f2 f3 f4 f5 : α → Option β}
    (f6 f7 f8 : α → Option β) {a : α} {b : β}
    (h1 : f1 a = none) (h2 : f2 a = none) (h3 : f3 a = none) (h4 : f4 a = none)
    (h5 : f5 a = some b) :
    List.findSome? (fun g => g a) [f1, f2, f3, f4, f5, f6, f7, f8] = some b := by
  simp [List.findSome?, h1, h2, h3, h4, h5]

theorem once_boolOr_cmp {op1 op2 : BinOp} (h1 : __rel_rank_op op1 ≠ -1)
    (h2 : __rel_rank_op op2 ≠ -1) (x y : Expr) :
    _reduce_expr_once (.bin .boolOr (.bin op1 x y) (.bin op2 x y)) =
      some (__get_rel_expr ((__rel_rank_op op1).toNat ||| (__rel_rank_op op2).toNat) x y) := by
  show List.findSome? (fun rule => rule (.bin .boolOr (.bin op1 x y) (.bin op2 x y))) _bexpr_rules
      = some _
  unfold _bexpr_rules
  refine findSome8_fifth _ _ _ rfl rfl rfl rfl ?_
  simp [_converged_cond, clone, h1, h2]

theorem once_boolAnd_cmp {op1 op2 : BinOp} (h1 : __rel_rank_op op1 ≠ -1)
    (h2 : __rel_rank_op op2 ≠ -1) (x y : Expr) :
    _reduce_expr_once (.bin .boolAnd (.bin op1 x y) (.bin op2 x y)) =
      some (__get_rel_expr ((__rel_rank_op op1).toNat &&& (__rel_rank_op op2).toNat) x y) := by
  show List.findSome? (fun rule => rule (.bin .boolAnd (.bin op1 x y) (.bin op2 x y))) _bexpr_rules
      = some _
  unfold _bexpr_rules
  refine findSome8_fifth _ _ _ rfl rfl rfl rfl ?_
  simp [_converged_cond, clone, h1, h2]

theorem once_eq_cmp {op1 op2 : BinOp} (h1 : __rel_rank_op op1 ≠ -1)
    (h2 : __rel_rank_op op2 ≠ -1) {x y : Expr} (hy : isLeafAtom y = true) :
    _reduce_expr_once (.bin .eq (.bin op1 x y) (.bin op2 x y)) =
      some (__get_rel_expr
        (__get_neg_rank ((__rel_rank_op op1).toNat ^^^ (__rel_rank_op op2).toNat)) x y) := by
  show List.findSome? (fun rule => rule (.bin .eq (.bin op1 x y) (.bin op2 x y))) _bexpr_rules
      = some _
  unfold _bexpr_rules
  refine findSome8_fifth _ _ _ rfl rfl rfl ?_ ?_
  · cases y <;> try simp [isLeafAtom] at hy
    all_goals rfl
  · simp [_converged_cond, clone, h1, h2]

theorem once_boolNot_cmp {op1 : BinOp} (h1 : __rel_rank_op op1 ≠ -1) (x y : Expr) :
    _reduce_expr_once (.boolNot (.bin op1 x y)) =
      some (__get_rel_expr ((__rel_rank_op op1).toNat ^^^ 7) x y) := by
  show List.findSome? (fun rule => rule (.boolNot (.bin op1 x y))) _uexpr_rules = some _
  unfold _uexpr_rules
  have hneg : _negate (.boolNot (.bin op1 x y)) = none := by
    cases op1 <;> first | rfl | (exact absurd rfl h1)
  simp only [List.findSome?, hneg,
    show _correct_ref (.boolNot (.bin op1 x y)) = none from rfl]
  simp [_converged_cond, clone, h1]

/-! ## Claim C1 -/

/-- C1 (amended): for two comparison expressions over structurally identical
*irreducible atom* operands `x` and `y` (registers, variables), `reduce_expr`
rewrites them by the 3-bit rank encoding `EQ=001, LT=010, LE=011, GT=100,
GE=101, NE=110` (`000` = false = `Val(0,1)`, `111` = true = `Val(1,1)`):
`BoolOr` of the two comparisons reduces to the relation whose rank is the
bitwise or of their ranks, `BoolAnd` to the bitwise and, `EQ` of the two
comparisons to the complement of the xor of their ranks, and `BoolNot` of a
single comparison to its rank xor `111`.  Instances: `Or(LT(x,y), EQ(x,y))`
reduces to `LE(x,y)` (ranks `2 ||| 1 = 3`), `And(LE, GE)` to `EQ`
(`3 &&& 5 = 1`), `BoolNot(LT)` to `GE` (`2 ^^^ 7 = 5`).  The algebra does
not hold for arbitrary operands as the original claim states: with constant
operands the operand comparisons pre-fold (`_equality` on two known values,
`_negate` on a negated constant) before `_converged_cond` can see a
comparison pair; see the counterexample. -/
theorem converged_cond_rank_algebra (op1 op2 : BinOp) (x y : Expr)
    (h1 : __rel_rank_op op1 ≠ -1) (h2 : __rel_rank_op op2 ≠ -1)
    (hx : isLeafAtom x = true) (hy : isLeafAtom y = true) (fuel : Nat) :
    reduce_expr (fuel + 1) (.bin .boolOr (.bin op1 x y) (.bin op2 x y)) =
        __get_rel_expr ((__rel_rank_op op1).toNat ||| (__rel_rank_op op2).toNat) x y
  ∧ reduce_expr (fuel + 1) (.bin .boolAnd (.bin op1 x y) (.bin op2 x y)) =
        __get_rel_expr ((__rel_rank_op op1).toNat &&& (__rel_rank_op op2).toNat) x y
  ∧ reduce_expr (fuel + 1) (.bin .eq (.bin op1 x y) (.bin op2 x y)) =
        __get_rel_expr
          (__get_neg_rank ((__rel_rank_op op1).toNat ^^^ (__rel_rank_op op2).toNat)) x y
  ∧ reduce_expr (fuel + 1) (.boolNot (.bin op1 x y)) =
        __get_rel_expr ((__rel_rank_op op1).toNat ^^^ 7) x y := by
  refine ⟨?_, ?_, ?_, ?_⟩
  · simp only [reduce_expr, mapOperands]
    rw [reduce_expr_cmp_atoms h1 hx hy, reduce_expr_cmp_atoms h2 hx hy,
      once_boolOr_cmp h1 h2]
    exact reduce_expr_rel_expr hx hy _ fuel
  · simp only [reduce_expr, mapOperands]
    rw [reduce_expr_cmp_atoms h1 hx hy, reduce_expr_cmp_atoms h2 hx hy,
      once_boolAnd_cmp h1 h2]
    exact reduce_expr_rel_expr hx hy _ fuel
  · simp only [reduce_expr, mapOperands]
    rw [reduce_expr_cmp_atoms h1 hx hy, reduce_expr_cmp_atoms h2 hx hy,
      once_eq_cmp h1 h2 hy]
    exact reduce_expr_rel_expr hx hy _ fuel
  · simp only [reduce_expr, mapOperands]
    rw [reduce_expr_cmp_atoms h1 hx hy, once_boolNot_cmp h1]
    exact reduce_expr_rel_expr hx hy _ fuel

/-- Witness for C1 at `op1 = LT`, `op2 = EQ`, `x = reg eax`, `y = reg ebx`:
the disjunction of the two comparisons reduces to `LE`, the conjunction to
the rank `2 &&& 1 = 0` constant false, the equality to `GT` (rank
`(2 ^^^ 1) ^^^ 7 = 4`), the negation to `GE`. -/
theorem converged_cond_rank_algebra_witness :
    reduce_expr 1 (.bin .boolOr (.bin .lt (.reg "eax" 32) (.reg "ebx" 32))
        (.bin .eq (.reg "eax" 32) (.reg "ebx" 32)))
      = .bin .le (.reg "eax" 32) (.reg "ebx" 32)
  ∧ reduce_expr 1 (.bin .boolAnd (.bin .lt (.reg "eax" 32) (.reg "ebx" 32))
        (.bin .eq (.reg "eax" 32) (.reg "ebx" 32)))
      = .val 0 1
  ∧ reduce_expr 1 (.bin .eq (.bin .lt (.reg "eax" 32) (.reg "ebx" 32))
        (.bin .eq (.reg "eax" 32) (.reg "ebx" 32)))
      = .bin .gt (.reg "eax" 32) (.reg "ebx" 32)
  ∧ reduce_expr 1 (.boolNot (.bin .lt (.reg "eax" 32) (.reg "ebx" 32)))
      = .bin .ge (.reg "eax" 32) (.reg "ebx" 32) := by
  obtain ⟨h1, h2, h3, h4⟩ :=
    converged_cond_rank_algebra .lt .eq (.reg "eax" 32) (.reg "ebx" 32)
      (by decide) (by decide) (by decide) (by decide) 0
  exact ⟨h1.trans (by decide), h2.trans (by decide), h3.trans (by decide),
    h4.trans (by decide)⟩

/-- C1 counterexample: with constant operands `x = Val(1,32)`,
`y = Val(2,32)` the rank algebra fails.  The operand `EQ(x,y)` pre-folds to
`Val(0,1)` (`_equality` compares two known values) before `_converged_cond`
can see a comparison pair, so `BoolOr(LT(x,y), EQ(x,y))` reduces to
`BoolOr(LT(x,y), Val(0,1))` and not to the rank-or `LE(x,y)`; and
`BoolNot(EQ(x,y))` reduces to the constant `Val(1,1)` (`_negate` folds the
negation of the pre-folded constant) and not to the rank-complement
`NE(x,y)`.  Larger fuel gives the same results. -/
theorem converged_cond_constants_not_rank_algebra :
    reduce_expr 5 (.boolNot (.bin .eq (.val 1 32) (.val 2 32))) = .val 1 1
  ∧ reduce_expr 9 (.boolNot (.bin .eq (.val 1 32) (.val 2 32))) = .val 1 1
  ∧ (Expr.val 1 1) ≠ .bin .ne (.val 1 32) (.val 2 32)
  ∧ reduce_expr 5 (.bin .boolOr (.bin .lt (.val 1 32) (.val 2 32))
        (.bin .eq (.val 1 32) (.val 2 32))) =
      .bin .boolOr (.bin .lt (.val 1 32) (.val 2 32)) (.val 0 1)
  ∧ reduce_expr 9 (.bin .boolOr (.bin .lt (.val 1 32) (.val 2 32))
        (.bin .eq (.val 1 32) (.val 2 32))) =
      .bin .boolOr (.bin .lt (.val 1 32) (.val 2 32)) (.val 0 1)
  ∧ (Expr.bin .boolOr (.bin .lt (.val 1 32) (.val 2 32)) (.val 0 1)) ≠
      .bin .le (.val 1 32) (.val 2 32) :=
  ⟨rfl, rfl, by decide, rfl, rfl, by decide⟩

/-! ## Claim C6 -/

theorem once_boolNot_atom_none {x : Expr} (hx : isLeafAtom x = true) :
    _reduce_expr_once (.boolNot x) = none := by
  cases x <;> try simp [isLeafAtom] at hx
  all_goals rfl

theorem reduce_expr_boolNot_atom {x : Expr} (hx : isLeafAtom x = true) (fuel : Nat) :
    reduce_expr fuel (.boolNot x) = .boolNot x := by
  cases fuel with
  | zero => rfl
  | succ f =>
    simp only [reduce_expr, mapOperands]
    rw [reduce_expr_atom hx f, once_boolNot_atom_none hx]

theorem once_sub_atoms_none {x y : Expr} (hx : isLeafAtom x = true)
    (hy : isLeafAtom y = true) :
    _reduce_expr_once (.bin .sub x y) = none := by
  cases x <;> try simp [isLeafAtom] at hx
  all_goals cases y <;> try simp [isLeafAtom] at hy
  all_goals rfl

theorem reduce_expr_sub_atoms {x y : Expr} (hx : isLeafAtom x = true)
    (hy : isLeafAtom y = true) (fuel : Nat) :
    reduce_expr fuel (.bin .sub x y) = .bin .sub x y := by
  cases fuel with
  | zero => rfl
  | succ f =>
    simp only [reduce_expr, mapOperands]
    rw [reduce_expr_atom hx f, reduce_expr_atom hy f, once_sub_atoms_none hx hy]

/-- C6 (amended): the algebraic laws hold with `x` and `y` irreducible atoms
(registers or variables): `Add(x, Val(0))` reduces to `x`,
`BoolNot(BoolNot(x))` to `x`, `Xor(x, x)` to `Val(0, x.size)`, and
`EQ(Sub(x, y), Val(0))` to `EQ(x, y)`, results compared structurally.  For a
reducible `x` the laws fail, because `reduce_expr` normalizes the operands
first (see the counterexample on `BoolNot(BoolNot(Val(5,1)))`). -/
theorem reduce_algebraic_identities (x y : Expr) (hx : isLeafAtom x = true)
    (hy : isLeafAtom y = true) (sz sz2 : Nat) (fuel : Nat) :
    reduce_expr (fuel + 1) (.bin .add x (.val 0 sz)) = x
  ∧ reduce_expr (fuel + 1) (.boolNot (.boolNot x)) = x
  ∧ reduce_expr (fuel + 1) (.bin .xor x x) = .val 0 x.size
  ∧ reduce_expr (fuel + 1) (.bin .eq (.bin .sub x y) (.val 0 sz2)) = .bin .eq x y := by
  refine ⟨?_, ?_, ?_, ?_⟩
  · simp only [reduce_expr, mapOperands]
    rw [reduce_expr_atom hx fuel, reduce_expr_val 0 sz fuel]
    have honce : _reduce_expr_once (.bin .add x (.val 0 sz)) = some x := by
      show List.findSome? (fun rule => rule (.bin .add x (.val 0 sz))) _bexpr_rules = some x
      unfold _bexpr_rules
      simp [List.findSome?, _correct_arith, __is_additive_id, clone, Expr.size]
    rw [honce]
    exact reduce_expr_atom hx fuel
  · simp only [reduce_expr, mapOperands]
    rw [reduce_expr_boolNot_atom hx fuel]
    have honce : _reduce_expr_once (.boolNot (.boolNot x)) = some x := by
      show List.findSome? (fun rule => rule (.boolNot (.boolNot x))) _uexpr_rules = some x
      unfold _uexpr_rules
      simp [List.findSome?, clone,
        show _correct_ref (.boolNot (.boolNot x)) = none from rfl,
        show _negate (.boolNot (.boolNot x)) = some (clone x) from rfl]
    rw [honce]
    exact reduce_expr_atom hx fuel
  · simp only [reduce_expr, mapOperands]
    rw [reduce_expr_atom hx fuel]
    have honce : _reduce_expr_once (.bin .xor x x) = some (.val 0 x.size) := by
      show List.findSome? (fun rule => rule (.bin .xor x x)) _bexpr_rules = some _
      unfold _bexpr_rules
      have hbw : _correct_bitwise (.bin .xor x x) = some (.val 0 x.size) := by
        cases x <;> try simp [isLeafAtom] at hx
        all_goals simp [_correct_bitwise, Expr.size]
      simp [List.findSome?, hbw,
        show _correct_arith (.bin .xor x x) = none from rfl,
        show _correct_sign (.bin .xor x x) = none from rfl]
    rw [honce]
    exact reduce_expr_val _ _ fuel
  · simp only [reduce_expr, mapOperands]
    rw [reduce_expr_sub_atoms hx hy fuel, reduce_expr_val 0 sz2 fuel]
    have honce : _reduce_expr_once (.bin .eq (.bin .sub x y) (.val 0 sz2)) =
        some (.bin .eq x y) := by
      show List.findSome? (fun rule => rule (.bin .eq (.bin .sub x y) (.val 0 sz2)))
          _bexpr_rules = some _
      unfold _bexpr_rules
      have heq : _equality (.bin .eq (.bin .sub x y) (.val 0 sz2)) = some (.bin .eq x y) := by
        cases y <;> try simp [isLeafAtom] at hy
        all_goals simp [_equality, clone, Expr.size, __rel_rank_op]
      simp [List.findSome?, heq,
        show _correct_arith (.bin .eq (.bin .sub x y) (.val 0 sz2)) = none from rfl,
        show _correct_sign (.bin .eq (.bin .sub x y) (.val 0 sz2)) = none from rfl,
        show _correct_bitwise (.bin .eq (.bin .sub x y) (.val 0 sz2)) = none from rfl]
    rw [honce]
    exact reduce_expr_cmp_atoms (by decide) hx hy fuel

/-- Witness for C6 at `x = reg eax`, `y = reg ebx`, width 32. -/
theorem reduce_algebraic_identities_witness :
    reduce_expr 1 (.bin .add (.reg "eax" 32) (.val 0 32)) = .reg "eax" 32
  ∧ reduce_expr 1 (.boolNot (.boolNot (.reg "eax" 32))) = .reg "eax" 32
  ∧ reduce_expr 1 (.bin .xor (.reg "eax" 32) (.reg "eax" 32)) = .val 0 32
  ∧ reduce_expr 1 (.bin .eq (.bin .sub (.reg "eax" 32) (.reg "ebx" 32)) (.val 0 32)) =
      .bin .eq (.reg "eax" 32) (.reg "ebx" 32) := by
  obtain ⟨h1, h2, h3, h4⟩ :=
    reduce_algebraic_identities (.reg "eax" 32) (.reg "ebx" 32) rfl rfl 32 32 0
  exact ⟨h1, h2, h3.trans (by decide), h4⟩

/-- An expression is a plain constant. -/
def Expr.isVal : Expr → Bool
| .val _ _ => true
| _ => false

/-- Counterexample to C6 as stated: for `x = Val(5, 1)` the double negation
law fails, `reduce_expr` maps `BoolNot(BoolNot(Val(5,1)))` to `Val(1,1)`
(the inner negation folds the truthy constant to `Val(0,1)` first), which is
not structurally equal to `x`.  The second equation shows the value is stable
at larger fuel, i.e. it is the loop's final result. -/
theorem reduce_double_boolnot_not_identity :
    reduce_expr 5 (.boolNot (.boolNot (.val 5 1))) = .val 1 1
  ∧ reduce_expr 9 (.boolNot (.boolNot (.val 5 1))) = .val 1 1
  ∧ (Expr.val 1 1) ≠ (Expr.val 5 1) :=
  ⟨rfl, rfl, by decide⟩

/-! ## Claim C3 -/

/-- C3 (amended): the `_constant_folding` rule folds each of the ten listed
binary operations over two constants into a single constant of the left
operand's bit-width, computed by exact integer arithmetic; `Shr` folds only
when `_has_msb_set` is false of the left constant — a test against the
JavaScript mask `1 << (size - 1)` computed with 32-bit shift semantics and
sign extension (see `_msb_mask`), which for 32- and 64-bit constants covers
bits 31..63 rather than the single top bit — and with the test true the rule
does not fire and the whole expression is left unchanged by `reduce_expr`
(given a nonzero shift count, otherwise the `x >> 0` identity returns the
left constant).  Within
`reduce_expr` the identity rules run first, so a binary over two constants
need not reduce to the fold result (see the `Xor` all-ones counterexample);
the `Mod` and `Add` conjuncts show full reductions where no identity
interferes. -/
theorem constant_folding_characterization :
    (∀ a b : Int, ∀ sa sb : Nat,
      _constant_folding (.bin .add (.val a sa) (.val b sb)) = some (.val (a + b) sa)
    ∧ _constant_folding (.bin .sub (.val a sa) (.val b sb)) = some (.val (a - b) sa)
    ∧ _constant_folding (.bin .mul (.val a sa) (.val b sb)) = some (.val (a * b) sa)
    ∧ _constant_folding (.bin .div (.val a sa) (.val b sb)) = some (.val (Int.tdiv a b) sa)
    ∧ _constant_folding (.bin .mod (.val a sa) (.val b sb)) = some (.val (Int.tmod a b) sa)
    ∧ _constant_folding (.bin .and (.val a sa) (.val b sb)) = some (.val (Int.land a b) sa)
    ∧ _constant_folding (.bin .or (.val a sa) (.val b sb)) = some (.val (Int.lor a b) sa)
    ∧ _constant_folding (.bin .xor (.val a sa) (.val b sb)) = some (.val (Int.xor a b) sa)
    ∧ _constant_folding (.bin .shl (.val a sa) (.val b sb)) =
        some (.val (a * 2 ^ b.toNat) sa))
  ∧ (∀ a b : Int, ∀ sa sb : Nat, _has_msb_set a sa = false →
      _constant_folding (.bin .shr (.val a sa) (.val b sb)) =
        some (.val (Int.tdiv a (2 ^ b.toNat)) sa))
  ∧ (∀ a b : Int, ∀ sa sb : Nat, _has_msb_set a sa = true →
      _constant_folding (.bin .shr (.val a sa) (.val b sb)) = none)
  ∧ (∀ fuel : Nat, ∀ a b : Int, ∀ sa sb : Nat,
      reduce_expr (fuel + 1) (.bin .mod (.val a sa) (.val b sb)) =
        .val (Int.tmod a b) sa)
  ∧ (∀ fuel : Nat,
      reduce_expr (fuel + 1) (.bin .add (.val 2 32) (.val 3 32)) = .val 5 32)
  ∧ (∀ fuel : Nat, ∀ a b : Int, ∀ sa sb : Nat, _has_msb_set a sa = true → b ≠ 0 →
      reduce_expr fuel (.bin .shr (.val a sa) (.val b sb)) =
        .bin .shr (.val a sa) (.val b sb)) := by
  refine ⟨?_, ?_, ?_, ?_, ?_, ?_⟩
  · intro a b sa sb
    refine ⟨rfl, rfl, rfl, rfl, rfl, rfl, rfl, rfl, rfl⟩
  · intro a b sa sb h
    simp [_constant_folding, operations, _sign_safe, h]
  · intro a b sa sb h
    simp [_constant_folding, operations, _sign_safe, h]
  · intro fuel a b sa sb
    simp only [reduce_expr, mapOperands]
    rw [reduce_expr_val a sa fuel, reduce_expr_val b sb fuel,
      show _reduce_expr_once (.bin .mod (.val a sa) (.val b sb)) =
        some (.val (Int.tmod a b) sa) from rfl]
    exact reduce_expr_val _ _ fuel
  · intro fuel
    simp only [reduce_expr, mapOperands]
    rw [reduce_expr_val 2 32 fuel, reduce_expr_val 3 32 fuel,
      show _reduce_expr_once (.bin .add (.val 2 32) (.val 3 32)) =
        some (.val 5 32) from rfl]
    exact reduce_expr_val _ _ fuel
  · intro fuel a b sa sb hmsb hb
    have ha : a ≠ 0 := by
      intro h0
      rw [h0] at hmsb
      have hz : Int.land 0 (_msb_mask sa) = 0 := by
        cases hp : _msb_mask sa with
        | ofNat n => simp [Int.land]
        | negSucc n => simp [Int.land, Nat.ldiff]
      simp [_has_msb_set, hz] at hmsb
    induction fuel with
    | zero => rfl
    | succ f ih =>
      have honce : _reduce_expr_once (.bin .shr (.val a sa) (.val b sb)) = none := by
        show List.findSome? (fun rule => rule (.bin .shr (.val a sa) (.val b sb)))
            _bexpr_rules = none
        unfold _bexpr_rules
        have hbw : _correct_bitwise (.bin .shr (.val a sa) (.val b sb)) = none := by
          simp [_correct_bitwise, Expr.size, ha, hb]
        have hcf : _constant_folding (.bin .shr (.val a sa) (.val b sb)) = none := by
          simp [_constant_folding, operations, _sign_safe, hmsb]
        simp [List.findSome?, hbw, hcf,
          show _correct_arith (.bin .shr (.val a sa) (.val b sb)) = none from rfl,
          show _correct_sign (.bin .shr (.val a sa) (.val b sb)) = none from rfl,
          show _equality (.bin .shr (.val a sa) (.val b sb)) = none from rfl,
          show _converged_cond (.bin .shr (.val a sa) (.val b sb)) = none from rfl,
          show _ctx_fold_assoc (.bin .shr (.val a sa) (.val b sb)) = none from rfl,
          show _ctx_fold_arith (.bin .shr (.val a sa) (.val b sb)) = none from rfl]
      simp only [reduce_expr, mapOperands]
      rw [reduce_expr_val a sa f, reduce_expr_val b sb f, honce]

/-- Witness for C3: folding `Shr(Val(4,8), Val(1,8))` (MSB test false)
gives `Val(2,8)`; `Shr(Val(128,8), Val(1,8))` (bit 7 set) does not fold;
`Shr(Val(2^32,64), Val(4,64))` does not fold either — bit 32 lies inside
the sign-extended 64-bit mask `0xFFFFFFFF80000000` of the JavaScript
`1 << 63` — and is left unchanged; `Mod` and `Add` reduce fully. -/
theorem constant_folding_characterization_witness :
    _constant_folding (.bin .shr (.val 4 8) (.val 1 8)) = some (.val 2 8)
  ∧ _constant_folding (.bin .shr (.val 128 8) (.val 1 8)) = none
  ∧ _constant_folding (.bin .shr (.val 4294967296 64) (.val 4 64)) = none
  ∧ reduce_expr 1 (.bin .add (.val 2 32) (.val 3 32)) = .val 5 32
  ∧ reduce_expr 9 (.bin .shr (.val 128 8) (.val 1 8)) = .bin .shr (.val 128 8) (.val 1 8)
  ∧ reduce_expr 9 (.bin .shr (.val 4294967296 64) (.val 4 64)) =
      .bin .shr (.val 4294967296 64) (.val 4 64) := by
  have hld : Nat.ldiff 4294967296 2147483647 ≠ 0 := by
    intro h
    have ht : Nat.testBit (Nat.ldiff 4294967296 2147483647) 32 = true := by
      rw [Nat.testBit_ldiff]; decide
    rw [h, Nat.zero_testBit] at ht
    exact Bool.false_ne_true ht
  have hland : Int.land 4294967296 (_msb_mask 64) =
      Int.ofNat (Nat.ldiff 4294967296 2147483647) := rfl
  have hmsb : _has_msb_set 4294967296 64 = true := by
    simp only [_has_msb_set, hland, decide_eq_true_eq, ne_eq]
    exact fun h => hld (Int.ofNat.inj h)
  refine ⟨?_, ?_, ?_, ?_, ?_, ?_⟩
  · exact (constant_folding_characterization.2.1 4 1 8 8 (by decide)).trans (by decide)
  · exact constant_folding_characterization.2.2.1 128 1 8 8 (by decide)
  · exact constant_folding_characterization.2.2.1 4294967296 4 64 64 hmsb
  · exact constant_folding_characterization.2.2.2.2.1 0
  · exact constant_folding_characterization.2.2.2.2.2 9 128 1 8 8 (by decide) (by decide)
  · exact constant_folding_characterization.2.2.2.2.2 9 4294967296 4 64 64
      hmsb (by decide)

/-- Counterexample to C3 as stated: `Xor(Val(5,8), Val(255,8))` has both
operands constant and `Xor` is in the folding table, but `reduce_expr`
rewrites it with the `x ^ 0xff...` identity (which runs before constant
folding) to `Not(Val(5,8))`, not to the folded constant `Val(250,8)`; the
result is not a constant at all.  The second equation shows stability at
larger fuel. -/
theorem reduce_xor_allones_not_constant :
    reduce_expr 5 (.bin .xor (.val 5 8) (.val 255 8)) = .not (.val 5 8)
  ∧ reduce_expr 9 (.bin .xor (.val 5 8) (.val 255 8)) = .not (.val 5 8)
  ∧ (Expr.not (.val 5 8)).isVal = false
  ∧ (Expr.not (.val 5 8)) ≠ (Expr.val (Int.xor 5 255) 8) :=
  ⟨rfl, rfl, rfl, by decide⟩

/-! ## Claim C5 -/

/-- C5: every firing of a rewrite rule, at the root or inside any operand
(one step of the `_reduce_expr` / `_reduce_expr_rec` loop), strictly
decreases the well-founded natural measure `Rmeasure`; consequently the
rewriting relation is well-founded and the reduction loop terminates on every
expression. -/
theorem reduce_expr_measure_terminates :
    (∀ e r : Expr, Step e r → Rmeasure r < Rmeasure e) ∧
    WellFounded (fun a b : Expr => Step b a) := by
  constructor
  · exact fun e r h => step_Rmeasure_dec h
  · exact Subrelation.wf (fun {a b} hab => step_Rmeasure_dec hab)
      (InvImage.wf Rmeasure Nat.lt_wfRel.wf)

/-- Witness for C5: the firing `Add(eax, Val(0,32))` into `eax` decreases the
measure. -/
theorem reduce_expr_measure_terminates_witness :
    Rmeasure (Expr.reg "eax" 32) <
      Rmeasure (Expr.bin .add (Expr.reg "eax" 32) (Expr.val 0 32)) :=
  reduce_expr_measure_terminates.1 _ _ (Step.root rfl)

/-! ## SSA context: `add_def` and `add_use`
(`Context.prototype.add_def` / `add_use`, `src/js/libcore2/analysis/ssa.js`;
the `core2` variant of `add_def`/`add_use` in `rename_variables` behaves the
same way)

Operands are modelled by their renaming-relevant content: the location name
(the `repr`), the ssa subscript `idx`, the bit width, and the `weak` flag.
The key under which a definition is registered is the operand's `toString`,
which prints the name and the subscript; it is modelled as the pair
`(name, idx)`.  `ctx.defs` is a JavaScript object: insertion-ordered,
assigning to an existing key replaces the value in place.  The def-use cross
links are modelled as data: a definition entry carries its `uses` list, and
`add_use` returns the key of the definition that the use's `def` field is
made to point at.  Neither operation has a failure path; the
`console.warn` / `console.log` diagnostics do not affect state and are not
modelled. -/

structure SVar where
  name : String
  idx : Option Nat
  size : Nat
  weak : Bool
deriving DecidableEq

/-- The registration key: `toString` = name plus subscript. -/
def SVar.key (v : SVar) : String × Option Nat := (v.name, v.idx)

/-- An entry of `ctx.defs`: the defining expression and its `uses` list
(reset to empty on registration). -/
structure DefEntry where
  lhand : SVar
  uses : List SVar
deriving DecidableEq

/-- A statement of the `uninit` container: `Assign(lhand, Val(value, vsize))`
pushed at address `Val(0).value = 0`. -/
structure UninitStmt where
  addr : Int
  lhand : SVar
  value : Int
  vsize : Nat
deriving DecidableEq

structure SsaContext where
  defs : List ((String × Option Nat) × DefEntry)
  uninit : List UninitStmt
deriving DecidableEq

/-- `Context.prototype.add_def`: registers `v` under its key and resets its
uses; when the key is already present the entry is overwritten in place
(JavaScript object assignment; the source only emits a warning). -/
def SsaContext.add_def (ctx : SsaContext) (v : SVar) : SsaContext :=
  { ctx with defs :=
      if (ctx.defs.find? (fun p => decide (p.1 = v.key))).isSome then
        ctx.defs.map (fun p => if p.1 = v.key then (p.1, ⟨v, []⟩) else p)
      else
        ctx.defs ++ [(v.key, ⟨v, []⟩)] }

/-- `Context.prototype.add_use`: when the key is not yet defined, synthesize
a weak definition — a clone of `u` preserving the subscript, marked weak,
assigned `Val(0, u.size)` — push it as a statement onto `uninit` and register
it; then attach `u` to the found definition.  Returns the updated context and
the key of the definition `u.def` now points at. -/
def SsaContext.add_use (ctx : SsaContext) (u : SVar) :
    SsaContext × (String × Option Nat) :=
  let key := u.key
  let ctx1 :=
    if (ctx.defs.find? (fun p => decide (p.1 = key))).isSome then ctx
    else
      let lhand : SVar := { name := u.name, idx := u.idx, size := u.size, weak := true }
      SsaContext.add_def
        { ctx with uninit := ctx.uninit ++ [⟨0, lhand, 0, u.size⟩] } lhand
  let ctx2 := { ctx1 with defs := ctx1.defs.map (fun p =>
      if p.1 = key then (p.1, { p.2 with uses := p.2.uses ++ [u] }) else p) }
  (ctx2, key)

theorem find?_none_map_update {k : String × Option Nat}
    {l : List ((String × Option Nat) × DefEntry)}
    (h : l.find? (fun p => decide (p.1 = k)) = none)
    (g : ((String × Option Nat) × DefEntry) → ((String × Option Nat) × DefEntry)) :
    l.map (fun p => if p.1 = k then g p else p) = l := by
  induction l with
  | nil => rfl
  | cons a t ih =>
    rw [List.find?_cons] at h
    split at h
    · exact absurd h (by simp)
    · rename_i hpa
      have hne : ¬(a.1 = k) := by simpa using hpa
      simp only [List.map_cons, if_neg hne]
      rw [ih h]

/-! ## Claim C4 -/

/-- C4: for every use `u` whose name+subscript key is absent from `ctx.defs`,
`add_use` does not fail: it synthesizes a weak definition — a clone of `u`
with its subscript preserved and `weak` set, assigned `Val(0, u.size)` —
appends it as a statement to the `uninit` container, registers it in
`ctx.defs` with `u` on its uses list, and the use's `def` field points at the
synthesized definition.  (`add_use` is a total function with no exception
path: this is recovery, not failure.) -/
theorem add_use_synthesizes_uninit_def (ctx : SsaContext) (u : SVar)
    (h : ctx.defs.find? (fun p => decide (p.1 = u.key)) = none) :
    (ctx.add_use u).1.uninit =
        ctx.uninit ++ [⟨0, ⟨u.name, u.idx, u.size, true⟩, 0, u.size⟩]
  ∧ (ctx.add_use u).1.defs.find? (fun p => decide (p.1 = u.key)) =
        some (u.key, ⟨⟨u.name, u.idx, u.size, true⟩, [u]⟩)
  ∧ (ctx.add_use u).2 = u.key := by
  have h2 : ctx.defs.find?
      (fun p => decide (p.1 = ((u.name, u.idx) : String × Option Nat))) = none := h
  have hmain : ctx.add_use u =
      ({ defs := ctx.defs ++ [(u.key, ⟨⟨u.name, u.idx, u.size, true⟩, [u]⟩)],
         uninit := ctx.uninit ++ [⟨0, ⟨u.name, u.idx, u.size, true⟩, 0, u.size⟩] },
        u.key) := by
    unfold SsaContext.add_use SsaContext.add_def
    simp [SVar.key, h2, find?_none_map_update h2]
  rw [hmain]
  refine ⟨rfl, ?_, rfl⟩
  rw [List.find?_append, h]
  simp

/-- Witness for C4: adding a use of an undefined `esp_0` synthesizes the weak
definition `esp_0 = Val(0, 32)` in `uninit` and links the use to it. -/
theorem add_use_synthesizes_uninit_def_witness :
    ((SsaContext.mk [] []).add_use ⟨"esp", some 0, 32, false⟩).1.uninit =
        [⟨0, ⟨"esp", some 0, 32, true⟩, 0, 32⟩]
  ∧ ((SsaContext.mk [] []).add_use ⟨"esp", some 0, 32, false⟩).1.defs.find?
        (fun p => decide (p.1 = ("esp", some 0))) =
        some (("esp", some 0), ⟨⟨"esp", some 0, 32, true⟩, [⟨"esp", some 0, 32, false⟩]⟩)
  ∧ ((SsaContext.mk [] []).add_use ⟨"esp", some 0, 32, false⟩).2 = ("esp", some 0) := by
  have h := add_use_synthesizes_uninit_def (SsaContext.mk [] [])
    ⟨"esp", some 0, 32, false⟩ (by decide)
  exact ⟨h.1, h.2.1, h.2.2⟩

/-! ## Claim C10 -/

/-- Helper: updating every entry whose key matches, when at least one entry
matches, makes the first `find?` return the overwritten entry. -/
theorem find?_map_overwrite {k : String × Option Nat} {e : DefEntry}
    {l : List ((String × Option Nat) × DefEntry)}
    (h : (l.find? (fun p => decide (p.1 = k))).isSome = true) :
    (l.map (fun p => if p.1 = k then (p.1, e) else p)).find?
        (fun p => decide (p.1 = k)) = some (k, e) := by
  induction l with
  | nil => simp at h
  | cons a t ih =>
    by_cases hk : a.1 = k
    · simp only [List.map_cons, if_pos hk, hk]
      rw [List.find?_cons]
      simp
    · rw [List.find?_cons] at h
      have hd : decide (a.1 = k) = false := by simpa using hk
      rw [hd] at h
      simp only [List.map_cons, if_neg hk]
      rw [List.find?_cons, hd]
      exact ih h

/-- C10: `add_def` on a key already present in `ctx.defs` raises no error and
is not a no-op: the map entry for that key is overwritten with the new
definition, whose uses list is reset to empty, while every entry under a
different key — including the previously registered definition object, which
keeps its own uses list — is untouched, and no entry is added or removed;
`uninit` is untouched.  (`add_def` is total: duplicate-definition detection
only logs a warning and never aborts.) -/
theorem add_def_overwrites_duplicate (ctx : SsaContext) (v : SVar)
    (h : (ctx.defs.find? (fun p => decide (p.1 = v.key))).isSome = true) :
    (ctx.add_def v).defs.find? (fun p => decide (p.1 = v.key)) =
        some (v.key, ⟨v, []⟩)
  ∧ (∀ p ∈ ctx.defs, p.1 ≠ v.key → p ∈ (ctx.add_def v).defs)
  ∧ (ctx.add_def v).defs.length = ctx.defs.length
  ∧ (ctx.add_def v).uninit = ctx.uninit := by
  unfold SsaContext.add_def
  simp only [if_pos h]
  refine ⟨find?_map_overwrite h, ?_, by simp, trivial⟩
  intro p hp hne
  have : (if p.1 = v.key then (p.1, (⟨v, []⟩ : DefEntry)) else p) = p := if_neg hne
  rw [show p = (if p.1 = v.key then (p.1, (⟨v, []⟩ : DefEntry)) else p) from this.symm]
  exact List.mem_map_of_mem _ hp

/-- Witness for C10: redefining `eax_1` overwrites the entry (old uses list
dropped from the map), keeps the other entry, and adds nothing. -/
theorem add_def_overwrites_duplicate_witness :
    (SsaContext.add_def (SsaContext.mk
        [(("eax", some 1), ⟨⟨"eax", some 1, 32, false⟩, [⟨"ebx", some 2, 32, false⟩]⟩),
         (("ecx", some 1), ⟨⟨"ecx", some 1, 32, false⟩, []⟩)] [])
        ⟨"eax", some 1, 32, true⟩).defs.find? (fun p => decide (p.1 = ("eax", some 1))) =
      some (("eax", some 1), ⟨⟨"eax", some 1, 32, true⟩, []⟩)
  ∧ (SsaContext.add_def (SsaContext.mk
        [(("eax", some 1), ⟨⟨"eax", some 1, 32, false⟩, [⟨"ebx", some 2, 32, false⟩]⟩),
         (("ecx", some 1), ⟨⟨"ecx", some 1, 32, false⟩, []⟩)] [])
        ⟨"eax", some 1, 32, true⟩).defs.length = 2 := by
  have h := add_def_overwrites_duplicate
    (SsaContext.mk
      [(("eax", some 1), ⟨⟨"eax", some 1, 32, false⟩, [⟨"ebx", some 2, 32, false⟩]⟩),
       (("ecx", some 1), ⟨⟨"ecx", some 1, 32, false⟩, []⟩)] [])
    ⟨"eax", some 1, 32, true⟩ (by decide)
  exact ⟨h.1, by rw [h.2.2.1]; decide⟩

/-! ## Phi relaxation (`simplify_single_phi`, `simplify_self_ref_phi`,
`propagate_chained_phi`), shared by claims C8 and C2.

A renamed context is modelled as an association list from a defined SSA
name to the expression assigned to it, which for the relaxation passes is
either a phi over a list of argument names or a plain (non-phi) right-hand
side.  Uses of a definition are derived structurally: every occurrence of
its name in a right-hand side still registered in `defs` is a use
(assignments detached by `pluck` remain counted until the end-of-pass
sweep removes their entry).  `Context.prototype.iterate` applies the
callback to every entry in key order and deletes the entries for which it
returned `true` only after the whole traversal. -/

inductive RVal where
  | rphi : List String → RVal
  | ratom : String → RVal
deriving DecidableEq

/-- A context's `defs` map for the relaxation passes. -/
abbrev RCtx := List (String × RVal)

/-- Number of uses of name `v` inside one right-hand side. -/
def RVal.usesIn (v : String) : RVal → Nat
  | .rphi args => args.count v
  | .ratom a => if a = v then 1 else 0

/-- `def.uses.length` for the definition of `v`: occurrences of `v` over all
registered right-hand sides. -/
def usesTotal (ctx : RCtx) (v : String) : Nat :=
  (ctx.map (fun p => p.2.usesIn v)).foldl (· + ·) 0

/-- The key of the first entry whose phi arguments mention `v`
(`u.parent instanceof Expr.Phi` plus locating `u.parent.parent`). -/
def findPhiUser (ctx : RCtx) (v : String) : Option String :=
  (ctx.find? (fun p => match p.2 with
    | .rphi args => decide (v ∈ args)
    | .ratom _ => false)).map (fun p => p.1)

/-- `simplify_single_phi`: `x = Phi(a)` becomes `x = a`; the callback never
returns `true`, so no entry is deleted. -/
def simplify_single_phi (ctx : RCtx) : RCtx :=
  ctx.map (fun p => match p with
    | (w, .rphi [a]) => (w, .ratom a)
    | q => q)

/-- `simplify_self_ref_phi`: `x = Phi(x, a)` or `x = Phi(a, x)` becomes
`x = a`; the callback never returns `true`, so no entry is deleted. -/
def simplify_self_ref_phi (ctx : RCtx) : RCtx :=
  ctx.map (fun p => match p with
    | (w, .rphi [a, b]) =>
        if a = w then (w, .ratom b)
        else if b = w then (w, .ratom a)
        else (w, .rphi [a, b])
    | q => q)

/-- One `propagate_chained_phi` callback invocation on the entry keyed `v`:
if `v` is assigned a phi and has exactly one use which sits inside the phi
assigned to `w`, that use is plucked out of `w`'s arguments, each of `v`'s
phi arguments not already present is appended to them, and the entry is
flagged for deletion.  When `w = v` the pluck mutates the iterated operand
list itself, so the push loop walks `args.erase v` and appends nothing. -/
def chainedStep (ctx : RCtx) (v : String) : RCtx × Bool :=
  match ctx.find? (fun p => decide (p.1 = v)) with
  | some (_, .rphi args) =>
    if usesTotal ctx v = 1 then
      match findPhiUser ctx v with
      | some w =>
        let targs := match ctx.find? (fun p => decide (p.1 = w)) with
          | some (_, .rphi ts) => ts
          | _ => []
        let src := if w = v then args.erase v else args
        let newtargs := src.foldl
          (fun acc o => if o ∈ acc then acc else acc ++ [o]) (targs.erase v)
        (ctx.map (fun p => if p.1 = w then (p.1, .rphi newtargs) else p), true)
      | none => (ctx, false)
    else (ctx, false)
  | _ => (ctx, false)

/-- `propagate_chained_phi`: iterate the callback over a snapshot of the
keys, threading the mutated context, then sweep the flagged entries and
report whether any were swept. -/
def propagate_chained_phi (ctx : RCtx) : RCtx × Bool :=
  let step := (ctx.map (fun p => p.1)).foldl
    (fun (acc : RCtx × List String) v =>
      let r := chainedStep acc.1 v
      (r.1, if r.2 then acc.2 ++ [v] else acc.2))
    (ctx, [])
  (step.1.filter (fun p => !step.2.contains p.1), !step.2.isEmpty)

/-- The phi-relaxation sequence run by `SSA.prototype._rename_wrapper` on
the context returned by `_rename`. -/
def rename_wrapper_relax (ctx : RCtx) : RCtx :=
  (propagate_chained_phi (simplify_self_ref_phi (simplify_single_phi ctx))).1

/-- An entry assigning a one-argument phi. -/
def isSinglePhi : String × RVal → Bool
  | (_, .rphi [_]) => true
  | _ => false

/-- An entry assigning a two-argument phi one of whose arguments is the
defined name itself. -/
def isSelfRefPhi2 : String × RVal → Bool
  | (w, .rphi [a, b]) => a = w || b = w
  | _ => false

/-! ## Claim C8 -/

/-- C8 (amended): after the first two relaxation passes of
`_rename_wrapper` — `simplify_single_phi` then `simplify_self_ref_phi` —
no definition of the context is assigned a one-argument phi, and none is
assigned a two-argument phi one of whose arguments is the defined variable
itself.  (The third pass, `propagate_chained_phi`, runs afterwards and can
reintroduce one-argument phis, so the property does not hold of the
wrapper's returned context; see the counterexample.) -/
theorem phi_relaxation_intermediate_fixpoint (ctx : RCtx) (p : String × RVal)
    (hp : p ∈ simplify_self_ref_phi (simplify_single_phi ctx)) :
    isSinglePhi p = false ∧ isSelfRefPhi2 p = false := by
  simp only [simplify_self_ref_phi, simplify_single_phi, List.map_map] at hp
  obtain ⟨q, hq, rfl⟩ := List.mem_map.mp hp
  obtain ⟨w, val⟩ := q
  cases val with
  | ratom a => simp [Function.comp, isSinglePhi, isSelfRefPhi2]
  | rphi args =>
    match args with
    | [] => simp [Function.comp, isSinglePhi, isSelfRefPhi2]
    | [a] => simp [Function.comp, isSinglePhi, isSelfRefPhi2]
    | [a, b] =>
      simp only [Function.comp]
      by_cases h1 : a = w
      · simp [h1, isSinglePhi, isSelfRefPhi2]
      · by_cases h2 : b = w
        · simp [h1, h2, isSinglePhi, isSelfRefPhi2]
        · simp [h1, h2, isSinglePhi, isSelfRefPhi2]
    | a :: b :: c :: t => simp [Function.comp, isSinglePhi, isSelfRefPhi2]

/-- Witness for C8: the context `x = Phi(a)` relaxes to `x = a`, which is
neither a one-argument phi nor a self-referencing phi. -/
theorem phi_relaxation_intermediate_fixpoint_witness :
    (("x", RVal.ratom "a") ∈ simplify_self_ref_phi (simplify_single_phi
        [("x", RVal.rphi ["a"])]))
  ∧ isSinglePhi ("x", RVal.ratom "a") = false
  ∧ isSelfRefPhi2 ("x", RVal.ratom "a") = false := by
  refine ⟨by decide, ?_⟩
  exact phi_relaxation_intermediate_fixpoint [("x", RVal.rphi ["a"])] _ (by decide)

/-- C8 counterexample: on the context `x = Phi(a, y); y = Phi(a, a)` the
full relaxation sequence of `_rename_wrapper` returns a context whose only
definition is the one-argument phi `x = Phi(a)` — `propagate_chained_phi`
plucked `y` out of `x`'s phi and appended no replacement because `a` was
already present, so the claimed fixpoint (no single-argument phi) fails on
the wrapper's returned context. -/
theorem rename_wrapper_leaves_single_phi :
    rename_wrapper_relax [("x", .rphi ["a", "y"]), ("y", .rphi ["a", "a"])] =
      [("x", .rphi ["a"])]
  ∧ isSinglePhi ("x", .rphi ["a"]) = true := ⟨by decide, rfl⟩

/-! ## Phi insertion (`insert_phi_exprs`), for claim C2.

The worklist algorithm is modelled per tracked definition `a`: blocks are
numbered, `preds` gives each block's CFG predecessor list, `DF` its
dominance frontier, and `hasDef` whether `a` is among the block's local
definitions (`defs[_y].indexOf(a)`).  State is `(W, seen, out)`: the
worklist (`W.pop()` removes the last element), the blocks already given a
phi for `a` (`phis[y]`), and the inserted phi assignments as
(block, argument list) pairs.  Each insertion clones `a` once per
predecessor of the target block, so its argument list is
`List.replicate (preds y).length a`. -/

/-- One iteration of the dominance-frontier `forEach` body. -/
def phi_insert_step (preds : Nat → List Nat) (hasDef : Nat → Bool) (a : String)
    (st : List Nat × List Nat × List (Nat × List String)) (y : Nat) :
    List Nat × List Nat × List (Nat × List String) :=
  if y ∈ st.2.1 then st
  else
    ((if hasDef y then st.1 else st.1 ++ [y]),
     st.2.1 ++ [y],
     st.2.2 ++ [(y, List.replicate (preds y).length a)])

/-- The `forEach` over a popped node's dominance frontier. -/
def phi_insert_frontier (preds : Nat → List Nat) (hasDef : Nat → Bool) (a : String)
    (st : List Nat × List Nat × List (Nat × List String)) (frontier : List Nat) :
    List Nat × List Nat × List (Nat × List String) :=
  frontier.foldl (phi_insert_step preds hasDef a) st

/-- The `while (W.length > 0)` worklist loop of `insert_phi_exprs`,
fueled. -/
def insert_phi_exprs_var (preds DF : Nat → List Nat) (hasDef : Nat → Bool)
    (a : String) : Nat → List Nat → List Nat → List (Nat × List String) →
    List (Nat × List String)
  | 0, _, _, out => out
  | fuel + 1, W, seen, out =>
    match W.getLast? with
    | none => out
    | some n =>
      let st := phi_insert_frontier preds hasDef a (W.dropLast, seen, out) (DF n)
      insert_phi_exprs_var preds DF hasDef a fuel st.1 st.2.1 st.2.2

theorem phi_insert_frontier_inv (preds : Nat → List Nat) (hasDef : Nat → Bool)
    (a : String) (frontier : List Nat)
    (st : List Nat × List Nat × List (Nat × List String))
    (hst : ∀ q ∈ st.2.2, q.2 = List.replicate (preds q.1).length a) :
    ∀ q ∈ (phi_insert_frontier preds hasDef a st frontier).2.2,
      q.2 = List.replicate (preds q.1).length a := by
  induction frontier generalizing st with
  | nil => exact hst
  | cons y t ih =>
    simp only [phi_insert_frontier, List.foldl_cons] at *
    apply ih
    unfold phi_insert_step
    split
    · exact hst
    · intro q hq
      rcases List.mem_append.mp hq with h | h
      · exact hst q h
      · simp only [List.mem_singleton] at h
        subst h
        rfl

theorem insert_phi_exprs_var_inv (preds DF : Nat → List Nat)
    (hasDef : Nat → Bool) (a : String) (fuel : Nat) :
    ∀ W seen out, (∀ q ∈ out, q.2 = List.replicate (preds q.1).length a) →
    ∀ q ∈ insert_phi_exprs_var preds DF hasDef a fuel W seen out,
      q.2 = List.replicate (preds q.1).length a := by
  induction fuel with
  | zero => intro W seen out h q hq; exact h q hq
  | succ f ih =>
    intro W seen out h q hq
    simp only [insert_phi_exprs_var] at hq
    cases hW : W.getLast? with
    | none =>
      rw [hW] at hq
      exact h q hq
    | some n =>
      rw [hW] at hq
      exact ih _ _ _ (phi_insert_frontier_inv preds hasDef a (DF n) _ h) q hq

/-! ## Claim C2 -/

/-- C2 (amended): phi insertion maintains the predecessor-count invariant —
every phi assignment placed by the `insert_phi_exprs` worklist for a
tracked definition `a` into a block `B` has exactly
`(preds B).length` arguments, each a clone of `a` (so the i-th argument
corresponds to the i-th predecessor by construction).  The second half of
the original claim is false: `propagate_chained_phi` appends the folded
phi's arguments to the target phi while discarding duplicates and does not
preserve the argument count; see the counterexample. -/
theorem insert_phi_arg_count_eq_pred_count (preds DF : Nat → List Nat)
    (hasDef : Nat → Bool) (a : String) (fuel : Nat) (W : List Nat)
    (p : Nat × List String)
    (hp : p ∈ insert_phi_exprs_var preds DF hasDef a fuel W [] []) :
    p.2 = List.replicate (preds p.1).length a
  ∧ p.2.length = (preds p.1).length := by
  have h := insert_phi_exprs_var_inv preds DF hasDef a fuel W [] []
    (by intro q hq; simp at hq) p hp
  exact ⟨h, by rw [h]; simp⟩

/-- Witness for C2: on a two-block CFG where block 1 has two predecessors
and lies on the dominance frontier of block 0, insertion places in block 1
the phi `Phi(a, a)` with exactly two arguments. -/
theorem insert_phi_arg_count_eq_pred_count_witness :
    ((1, ["a", "a"]) ∈ insert_phi_exprs_var (fun j => [0, 1])
        (fun n => if n = 0 then [1] else []) (fun n => decide (n = 0)) "a"
        3 [0] [] [])
  ∧ (["a", "a"] : List String) = List.replicate ([0, 1] : List Nat).length "a"
  ∧ (["a", "a"] : List String).length = ([0, 1] : List Nat).length := by
  refine ⟨by decide, ?_⟩
  exact insert_phi_arg_count_eq_pred_count (fun j => [0, 1])
    (fun n => if n = 0 then [1] else []) (fun n => decide (n = 0)) "a"
    3 [0] (1, ["a", "a"]) (by decide)

/-- C2 counterexample: `x = Phi(a, y)` was inserted for a block with two
predecessors; folding the chained phi `y = Phi(b, c)` into it removes the
use of `y` and appends the two fresh arguments, leaving `x = Phi(a, b, c)`
with three arguments — the folding pass does not preserve the equality of
phi argument count and predecessor count. -/
theorem propagate_chained_phi_changes_arg_count :
    (propagate_chained_phi [("x", RVal.rphi ["a", "y"]), ("y", RVal.rphi ["b", "c"])]).1 =
      [("x", RVal.rphi ["a", "b", "c"])]
  ∧ (["a", "b", "c"] : List String).length ≠ (["a", "y"] : List String).length :=
  ⟨by decide, by decide⟩

/-! ## Dead-results pruning (`Pruner.run` with `_select_dead_results`),
for claim C7.

A function body is a list of statements, each an ordered list of top-level
expressions.  A `ctx.defs` entry is modelled as (key, use count, statement
index, expression index of the parent assignment).  `Expr.Var` extends
`Expr.Reg` in the source class hierarchy (`_select_dead_regs` must test
`!(def instanceof Expr.Var)` explicitly), so the `instanceof Expr.Reg`
test of `_select_dead_results` accepts both.

Modelled from the spec (statement methods live in the statements module,
absent from the sources): a statement holds an ordered list of top-level
expressions, and `stmt.push_expr_after(e, p)` inserts `e` into that list
immediately after expression `p`; `pluck` removes an expression from the
list. -/

inductive QExpr where
  | qreg : String → Nat → QExpr
  | qvar : String → Nat → QExpr
  | qval : Int → QExpr
  | qcall : Nat → QExpr
  | qassign : QExpr → QExpr → QExpr
deriving DecidableEq

/-- `instanceof Expr.Reg` (true of `Expr.Var` as well). -/
def is_reg_inst : QExpr → Bool
  | .qreg _ _ => true
  | .qvar _ _ => true
  | _ => false

/-- `instanceof Expr.Call`. -/
def is_call_inst : QExpr → Bool
  | .qcall _ => true
  | _ => false

/-- `stmt.push_expr_after(v, p)` with `p` the expression at index `i`. -/
def push_expr_after (stmt : List QExpr) (v : QExpr) (i : Nat) : List QExpr :=
  stmt.take (i + 1) ++ [v] ++ stmt.drop (i + 1)

/-- `pluck` of the expression at index `i` out of its statement. -/
def pluckAt (stmt : List QExpr) (i : Nat) : List QExpr :=
  stmt.take i ++ stmt.drop (i + 1)

/-- One `Pruner.run` loop iteration on a defs entry (key, uses, stmt index,
expr index): when `_select_dead_results` accepts, the call is plucked out
of the assignment, pushed into the same statement right after it, and the
assignment itself is plucked; returns the updated function body and the
selector verdict. -/
def dead_results_step (fn : List (List QExpr)) (e : String × Nat × Nat × Nat) :
    List (List QExpr) × Bool :=
  let stmt := fn.getD e.2.2.1 []
  match stmt.getD e.2.2.2 (.qval 0) with
  | .qassign d v =>
    if e.2.1 = 0 && is_reg_inst d && is_call_inst v then
      (fn.set e.2.2.1 (pluckAt (push_expr_after stmt v e.2.2.2) e.2.2.2), true)
    else (fn, false)
  | _ => (fn, false)

/-- `Pruner.eliminate_dead_results.run(context)`: fold the step over the
entries, collect the keys the selector accepted, delete them from `defs`
after the sweep, and report whether any entry was pruned. -/
def eliminate_dead_results_run (fn : List (List QExpr))
    (defs : List (String × Nat × Nat × Nat)) :
    List (List QExpr) × List (String × Nat × Nat × Nat) × Bool :=
  let step := defs.foldl (fun (acc : List (List QExpr) × List String) e =>
      let r := dead_results_step acc.1 e
      (r.1, if r.2 then acc.2 ++ [e.1] else acc.2)) (fn, [])
  (step.1, defs.filter (fun e => !step.2.contains e.1), !step.2.isEmpty)

theorem pluck_push_eq (stmt : List QExpr) (v : QExpr) (ei : Nat)
    (h : ei < stmt.length) :
    pluckAt (push_expr_after stmt v ei) ei =
      stmt.take ei ++ v :: stmt.drop (ei + 1) := by
  have hlen : (stmt.take (ei + 1)).length = ei + 1 := by
    rw [List.length_take]; omega
  unfold pluckAt push_expr_after
  rw [List.append_assoc, List.take_append_of_le_length (by rw [hlen]; omega),
      List.drop_left' hlen, List.take_take, Nat.min_eq_left (by omega)]
  rfl

/-! ## Claim C7 -/

/-- C7 (amended): for a defs entry whose assignment at (statement `si`,
expression slot `ei`) assigns a `Call` to a zero-use `Reg`, one run of the
dead-results pass replaces the assignment with the standalone call at the
same expression slot of the *same* statement (the call is inserted by
`stmt.push_expr_after` right after the assignment, which is then plucked),
removes the entry from `defs` after the sweep, and `run()` returns `true`.
No new statement is created and the statement count of the function is
unchanged, contrary to the claim's "inserted immediately after the
statement holding the assignment"; see the counterexample. -/
theorem dead_results_extracts_call (fn : List (List QExpr)) (k : String)
    (si ei : Nat) (d v : QExpr)
    (hei : ei < (fn.getD si []).length)
    (hp : (fn.getD si []).getD ei (.qval 0) = .qassign d v)
    (hreg : is_reg_inst d = true) (hcall : is_call_inst v = true) :
    (eliminate_dead_results_run fn [(k, 0, si, ei)]).1 =
      fn.set si ((fn.getD si []).take ei ++ v :: (fn.getD si []).drop (ei + 1))
  ∧ (eliminate_dead_results_run fn [(k, 0, si, ei)]).2.1 = []
  ∧ (eliminate_dead_results_run fn [(k, 0, si, ei)]).2.2 = true
  ∧ (eliminate_dead_results_run fn [(k, 0, si, ei)]).1.length = fn.length := by
  have hstep : dead_results_step fn (k, 0, si, ei) =
      (fn.set si ((fn.getD si []).take ei ++ v :: (fn.getD si []).drop (ei + 1)),
        true) := by
    simp only [dead_results_step]
    rw [hp]
    simp [hreg, hcall]
    have hei2 : ei < (fn[si]?.getD []).length := by simpa using hei
    exact congrArg (fn.set si) (pluck_push_eq _ v ei hei2)
  simp only [eliminate_dead_results_run, List.foldl_cons, List.foldl_nil, hstep]
  simp

/-- Witness for C7: pruning `eax₀ = call(1)` (zero uses) in a two-statement
function leaves the call standalone in the first statement and deletes the
entry. -/
theorem dead_results_extracts_call_witness :
    (eliminate_dead_results_run
        [[.qassign (.qreg "eax" 0) (.qcall 1)], [.qreg "eax" 1]]
        [("eax0", 0, 0, 0)]).1 =
      [[.qcall 1], [.qreg "eax" 1]]
  ∧ (eliminate_dead_results_run
        [[.qassign (.qreg "eax" 0) (.qcall 1)], [.qreg "eax" 1]]
        [("eax0", 0, 0, 0)]).2.1 = []
  ∧ (eliminate_dead_results_run
        [[.qassign (.qreg "eax" 0) (.qcall 1)], [.qreg "eax" 1]]
        [("eax0", 0, 0, 0)]).2.2 = true := by
  have h := dead_results_extracts_call
    [[.qassign (.qreg "eax" 0) (.qcall 1)], [.qreg "eax" 1]]
    "eax0" 0 0 (.qreg "eax" 0) (.qcall 1)
    (by decide) (by decide) (by decide) (by decide)
  exact ⟨h.1.trans (by decide), h.2.1, h.2.2.1⟩

/-- C7 counterexample: the extracted call does not become a new statement
after the assignment's statement — the function keeps its two statements,
with the call occupying the assignment's former slot inside the first one,
whereas the claim's placement would yield three statements. -/
theorem dead_results_no_new_statement :
    (eliminate_dead_results_run
        [[.qassign (.qreg "eax" 0) (.qcall 1)], [.qreg "eax" 1]]
        [("r", 0, 0, 0)]).1 = [[.qcall 1], [.qreg "eax" 1]]
  ∧ (eliminate_dead_results_run
        [[.qassign (.qreg "eax" 0) (.qcall 1)], [.qreg "eax" 1]]
        [("r", 0, 0, 0)]).1.length ≠
      ([[.qassign (.qreg "eax" 0) (.qcall 1)], [.qreg "eax" 1]] :
        List (List QExpr)).length + 1 := ⟨by decide, by decide⟩

/-! ## `transform_out`, for claim C9.

An expression is modelled as a node carrying an opaque payload (operator
tag, name, value… — everything except the SSA subscript), its optional SSA
subscript `idx`, and its ordered operand list; the operand list is a
mutually defined list type so that structural recursion over the tree is
available.  A function is a list of basic blocks (address × statements),
each statement an ordered list of top-level expressions.
`expr.iter_operands()` visits the expression and all of its descendants,
and `transform_out` sets `op.idx = undefined` on each visited operand
(the `if (op.idx !== undefined)` guard makes the assignment conditional
but the net effect is unconditional erasure). -/

mutual
inductive XExpr where
  | mk : String → Option Nat → XList → XExpr
inductive XList where
  | nil : XList
  | cons : XExpr → XList → XList
end

mutual
inductive XShape where
  | mk : String → XShapeList → XShape
inductive XShapeList where
  | nil : XShapeList
  | cons : XShape → XShapeList → XShapeList
end

mutual
/-- The effect of `transform_out`'s inner loop on one expression tree:
every node's `idx` becomes `undefined`. -/
def XExpr.null_idx : XExpr → XExpr
  | .mk tag _ ops => .mk tag none ops.null_idx_list
def XList.null_idx_list : XList → XList
  | .nil => .nil
  | .cons e t => .cons e.null_idx t.null_idx_list
end

mutual
/-- Every node of the tree has `idx = undefined`. -/
def XExpr.idx_clear : XExpr → Bool
  | .mk _ i ops => i.isNone && ops.idx_clear_list
def XList.idx_clear_list : XList → Bool
  | .nil => true
  | .cons e t => e.idx_clear && t.idx_clear_list
end

mutual
/-- The `idx`-erasing projection of a tree: payload and operand structure
only. -/
def XExpr.shape : XExpr → XShape
  | .mk tag _ ops => .mk tag ops.shape_list
def XList.shape_list : XList → XShapeList
  | .nil => .nil
  | .cons e t => .cons e.shape t.shape_list
end

/-- `SSA.prototype.transform_out`: erase the SSA subscript of every operand
of every expression of every statement of every basic block. -/
def transform_out (fn : List (Nat × List (List XExpr))) :
    List (Nat × List (List XExpr)) :=
  fn.map (fun b => (b.1, b.2.map (fun stmt => stmt.map XExpr.null_idx)))

/-- All operands across the whole function have a null subscript. -/
def fnIdxClear (fn : List (Nat × List (List XExpr))) : Bool :=
  fn.all (fun b => b.2.all (fun s => s.all XExpr.idx_clear))

/-- The function with all subscripts forgotten: block addresses, statement
lists and expression shapes. -/
def fnShape (fn : List (Nat × List (List XExpr))) :
    List (Nat × List (List XShape)) :=
  fn.map (fun b => (b.1, b.2.map (fun s => s.map XExpr.shape)))

mutual
theorem null_idx_clear : (e : XExpr) → e.null_idx.idx_clear = true
  | .mk tag i ops => by
    simp [XExpr.null_idx, XExpr.idx_clear, null_idx_clear_list ops]
theorem null_idx_clear_list : (l : XList) → l.null_idx_list.idx_clear_list = true
  | .nil => rfl
  | .cons e t => by
    simp [XList.null_idx_list, XList.idx_clear_list, null_idx_clear e,
      null_idx_clear_list t]
end

mutual
theorem null_idx_shape : (e : XExpr) → e.null_idx.shape = e.shape
  | .mk tag i ops => by
    simp [XExpr.null_idx, XExpr.shape, null_idx_shape_list ops]
theorem null_idx_shape_list : (l : XList) → l.null_idx_list.shape_list = l.shape_list
  | .nil => rfl
  | .cons e t => by
    simp [XList.null_idx_list, XList.shape_list, null_idx_shape e,
      null_idx_shape_list t]
end

/-! ## Claim C9 -/

/-- C9: after `transform_out` runs on a function, every operand of every
expression in every statement of every basic block has a null SSA
subscript, and nothing else changes: block addresses, statement lists and
the subscript-free shape of every expression are exactly those of the
input. -/
theorem transform_out_erases_all_idx (fn : List (Nat × List (List XExpr))) :
    fnIdxClear (transform_out fn) = true
  ∧ fnShape (transform_out fn) = fnShape fn := by
  constructor
  · simp [fnIdxClear, transform_out, List.all_map, Function.comp, null_idx_clear]
  · simp [fnShape, transform_out, List.map_map, Function.comp, null_idx_shape]
